import Mathlib

/-!
Verification of the approval/SPAV election engine in `approval.py`.

The data model (`Candidate`, `Ballot`, `Round`, `Result`) and the engine
(`approval_election`) are shallowly embedded below.  A Python `Counter` is an
insertion-ordered association list here (`addScore` reproduces
`scores[candidate] += w`: update in place, or append a fresh entry at the end);
`most_common` is the stable descending insertion sort that
`Counter.most_common()` performs; ballot weights are exact rationals standing
for the Python floats.  The `while` loop of `approval_election` runs exactly
`seats - len(winners)` further iterations, so it is embedded with that fuel.
The tuple unpacking `(winner, _), *_ = scores.most_common()` raises a
`ValueError` on an empty mapping; failure outcomes carry the ballot list as
the caller observes it (ballots are mutated in place in the source).
`ElectionError` lists the failure vocabulary of the specification alongside
the one error the code can actually signal.
-/

/-- A candidate; equality and hashing are by name in the source. -/
structure Candidate where
  name : String
deriving DecidableEq

/-- A ballot: an ordered list of approved candidates and a mutable weight
(initially `1`). -/
structure Ballot where
  approved_candidates : List Candidate
  weight : ℚ := 1
deriving DecidableEq

/-- One election round: the winner, the snapshot of the scoring mapping (in
insertion order), and the total weighted vote mass at recording time. -/
structure Round where
  winner : Candidate
  scores : List (Candidate × ℚ)
  weighted_votes : ℚ
deriving DecidableEq

/-- The overall election result. -/
structure Result where
  winners : List Candidate
  rounds : List Round
  ballots : List Ballot
deriving DecidableEq

/-- Failure vocabulary: the specification's named condition, and the bare
`ValueError` the source's tuple unpacking actually raises. -/
inductive ElectionError where
  | insufficientCandidates
  | unpackValueError
deriving DecidableEq

/-- Outcome of a call: a `Result`, or an exception together with the ballot
list as the caller then observes it (weights are mutated in place). -/
inductive ElectOutcome where
  | ok (result : Result)
  | raised (err : ElectionError) (ballots : List Ballot)
deriving DecidableEq

/-- `scores[c] += w` on a `Counter`: update the existing entry in place, or
append a new entry (missing keys default to `0`) at the end. -/
def addScore (scores : List (Candidate × ℚ)) (c : Candidate) (w : ℚ) :
    List (Candidate × ℚ) :=
  match scores with
  | [] => [(c, w)]
  | (c', w') :: rest =>
    if c' = c then (c', w' + w) :: rest else (c', w') :: addScore rest c w

/-- The scoring pass of one round: every ballot, every approved candidate not
already in `winners`, adds the ballot's weight. -/
def computeScores (ballots : List Ballot) (winners : List Candidate) :
    List (Candidate × ℚ) :=
  ballots.foldl
    (fun sc b =>
      b.approved_candidates.foldl
        (fun sc2 c => if c ∈ winners then sc2 else addScore sc2 c b.weight) sc)
    []

/-- One step of the stable descending insertion sort behind
`Counter.most_common()`: an entry moves ahead only of strictly smaller
scores, so entries with equal scores keep their insertion order. -/
def insertDesc (p : Candidate × ℚ) : List (Candidate × ℚ) → List (Candidate × ℚ)
  | [] => [p]
  | q :: rest => if q.2 > p.2 then q :: insertDesc p rest else p :: q :: rest

/-- `Counter.most_common()`: the entries sorted by score, descending, stably. -/
def most_common (l : List (Candidate × ℚ)) : List (Candidate × ℚ) :=
  l.foldr insertDesc []

/-- `sum(b.weight for b in ballots)`. -/
def sumWeights (ballots : List Ballot) : ℚ :=
  ballots.foldl (fun acc b => acc + b.weight) 0

/-- The reweighting step: every ballot's weight becomes `1 / (1 + m)` where
`m` counts the entries of its approved list that are in `winners`. -/
def reweight (ballots : List Ballot) (winners : List Candidate) : List Ballot :=
  ballots.map fun b =>
    { b with
      weight :=
        1 / (1 + (b.approved_candidates.countP (fun c => decide (c ∈ winners)) : ℚ)) }

/-- The `while len(winners) < seats` loop, with the remaining number of
iterations as fuel.  An empty `most_common` list makes the tuple unpacking
raise `ValueError`; otherwise the head candidate wins the round, the round is
recorded (scores snapshot, weight sum before reweighting), and the ballots are
reweighted against the extended winner list. -/
def electLoop : Nat → List Ballot → List Candidate → List Round → ElectOutcome
  | 0, ballots, winners, rounds => .ok ⟨winners, rounds, ballots⟩
  | n + 1, ballots, winners, rounds =>
    match most_common (computeScores ballots winners) with
    | [] => .raised .unpackValueError ballots
    | (winner, _) :: _ =>
      electLoop n (reweight ballots (winners ++ [winner])) (winners ++ [winner])
        (rounds ++ [⟨winner, computeScores ballots winners, sumWeights ballots⟩])

/-- `approval_election(ballots, seats)` from the source. -/
def approval_election (ballots : List Ballot) (seats : Nat) : ElectOutcome :=
  electLoop seats ballots [] []

/-- First-match lookup in a score list, defaulting to `0` (a `Counter` returns
`0` for missing keys). -/
def scoreOf : List (Candidate × ℚ) → Candidate → ℚ
  | [], _ => 0
  | (c, w) :: rest, d => if c = d then w else scoreOf rest d

/-- The entry a head-of-`most_common` unpacking selects: the first entry of
the list attaining the maximal score. -/
def firstMaxPair : List (Candidate × ℚ) → Option (Candidate × ℚ)
  | [] => none
  | p :: rest =>
    match firstMaxPair rest with
    | none => some p
    | some q => if q.2 > p.2 then some q else some p

/-- `c` sits in the score list with a score strictly above every entry
inserted before it and at least every entry of the list: `c` is the first
inserted of the candidates tied for the highest score. -/
def FirstInsertedMax (c : Candidate) (sc : List (Candidate × ℚ)) : Prop :=
  ∃ w l₁ l₂, sc = l₁ ++ (c, w) :: l₂ ∧ (∀ p ∈ l₁, p.2 < w) ∧ ∀ p ∈ sc, p.2 ≤ w

/-- The ballot list as it stands once the listed winners have been elected:
untouched before the first round, otherwise reweighted against the winners so
far (reweighting reads only the approved lists, never the incoming weights). -/
def stateFor (orig : List Ballot) (w : List Candidate) : List Ballot :=
  if w = [] then orig else reweight orig w

/-- Spec-side: the raw approval count of `c`, the number of ballots whose
approved list contains `c`. -/
def rawApprovalCount (ballots : List Ballot) (c : Candidate) : ℕ :=
  ballots.countP (fun b => decide (c ∈ b.approved_candidates))

/-- Spec-side: every candidate in first-encountered order over the
ballot-then-approval-list iteration. -/
def seenCandidates (ballots : List Ballot) : List Candidate :=
  ballots.foldl
    (fun acc b =>
      b.approved_candidates.foldl
        (fun acc2 c => if c ∈ acc2 then acc2 else acc2 ++ [c]) acc)
    []

/-- Spec-side: the first candidate of the list attaining the maximal value of
`f` (ties broken towards the front). -/
def firstMaxBy {β : Type} [LinearOrder β] (f : Candidate → β) :
    List Candidate → Option Candidate
  | [] => none
  | c :: rest =>
    match firstMaxBy f rest with
    | none => some c
    | some d => if f d > f c then some d else some c

/-- Spec-side single-seat winner: the candidate with the maximum raw approval
count, ties broken by first-seen order. -/
def specSingleSeatWinner (ballots : List Ballot) : Option Candidate :=
  firstMaxBy (rawApprovalCount ballots) (seenCandidates ballots)

theorem insertDesc_ne_nil (p : Candidate × ℚ) (l : List (Candidate × ℚ)) :
    insertDesc p l ≠ [] := by
  cases l with
  | nil => simp [insertDesc]
  | cons q rest => simp only [insertDesc]; split <;> simp

theorem most_common_cons (p : Candidate × ℚ) (t : List (Candidate × ℚ)) :
    most_common (p :: t) = insertDesc p (most_common t) := rfl

theorem most_common_eq_nil {l : List (Candidate × ℚ)} (h : most_common l = []) :
    l = [] := by
  cases l with
  | nil => rfl
  | cons p t => exact absurd h (insertDesc_ne_nil p (most_common t))

theorem mem_insertDesc {q p : Candidate × ℚ} {l : List (Candidate × ℚ)}
    (h : q ∈ insertDesc p l) : q = p ∨ q ∈ l := by
  induction l with
  | nil => simp [insertDesc] at h; exact Or.inl h
  | cons x rest ih =>
    simp only [insertDesc] at h
    split at h
    · rcases List.mem_cons.mp h with h1 | h2
      · exact Or.inr (by simp [h1])
      · rcases ih h2 with h3 | h4
        · exact Or.inl h3
        · exact Or.inr (List.mem_cons_of_mem _ h4)
    · rcases List.mem_cons.mp h with h1 | h2
      · exact Or.inl h1
      · exact Or.inr h2

theorem mem_most_common {q : Candidate × ℚ} {l : List (Candidate × ℚ)}
    (h : q ∈ most_common l) : q ∈ l := by
  induction l with
  | nil => simp [most_common] at h
  | cons p t ih =>
    rw [most_common_cons] at h
    rcases mem_insertDesc h with h1 | h2
    · simp [h1]
    · exact List.mem_cons_of_mem _ (ih h2)

theorem firstMaxPair_eq_none {l : List (Candidate × ℚ)}
    (h : firstMaxPair l = none) : l = [] := by
  cases l with
  | nil => rfl
  | cons x t =>
    rw [firstMaxPair] at h
    cases hf : firstMaxPair t with
    | none => rw [hf] at h; simp at h
    | some q => rw [hf] at h; dsimp at h; split at h <;> simp at h

theorem head?_most_common (l : List (Candidate × ℚ)) :
    (most_common l).head? = firstMaxPair l := by
  induction l with
  | nil => rfl
  | cons p t ih =>
    rw [most_common_cons]
    cases hmc : most_common t with
    | nil =>
      have ht : t = [] := most_common_eq_nil hmc
      subst ht
      simp [most_common, insertDesc, firstMaxPair]
    | cons q s =>
      rw [hmc] at ih
      have hfm : firstMaxPair (p :: t) = if q.2 > p.2 then some q else some p := by
        rw [firstMaxPair, ← ih]
        rfl
      rw [hfm]
      by_cases hq : q.2 > p.2 <;> simp [insertDesc, hq]

theorem firstMaxPair_split :
    ∀ {l : List (Candidate × ℚ)} {p : Candidate × ℚ}, firstMaxPair l = some p →
    ∃ l₁ l₂, l = l₁ ++ p :: l₂ ∧ (∀ q ∈ l₁, q.2 < p.2) ∧ ∀ q ∈ l, q.2 ≤ p.2 := by
  intro l
  induction l with
  | nil => intro p h; simp [firstMaxPair] at h
  | cons x t ih =>
    intro p h
    rw [firstMaxPair] at h
    cases hf : firstMaxPair t with
    | none =>
      have ht : t = [] := firstMaxPair_eq_none hf
      rw [hf] at h
      simp only [Option.some.injEq] at h
      subst ht
      refine ⟨[], [], by simp [h], by simp, ?_⟩
      intro q hq
      simp at hq
      simp [hq, ← h]
    | some q =>
      rw [hf] at h
      dsimp at h
      by_cases hgt : q.2 > x.2
      · rw [if_pos hgt] at h
        simp only [Option.some.injEq] at h
        subst h
        rcases ih hf with ⟨t₁, t₂, ht, h1, h2⟩
        refine ⟨x :: t₁, t₂, by simp [ht], ?_, ?_⟩
        · intro r hr
          rcases List.mem_cons.mp hr with h3 | h4
          · rw [h3]; exact hgt
          · exact h1 r h4
        · intro r hr
          rcases List.mem_cons.mp hr with h3 | h4
          · rw [h3]; exact le_of_lt hgt
          · exact h2 r h4
      · rw [if_neg hgt] at h
        simp only [Option.some.injEq] at h
        subst h
        rcases ih hf with ⟨t₁, t₂, ht, h1, h2⟩
        refine ⟨[], t, by simp, by simp, ?_⟩
        intro r hr
        rcases List.mem_cons.mp hr with h3 | h4
        · rw [h3]
        · exact le_trans (h2 r h4) (not_lt.mp hgt)

theorem firstMaxPair_firstInsertedMax {l : List (Candidate × ℚ)}
    {p : Candidate × ℚ} (h : firstMaxPair l = some p) : FirstInsertedMax p.1 l := by
  rcases firstMaxPair_split h with ⟨l₁, l₂, hl, h1, h2⟩
  exact ⟨p.2, l₁, l₂, hl, h1, h2⟩

theorem mem_addScore {p : Candidate × ℚ} {sc : List (Candidate × ℚ)}
    {c : Candidate} {w : ℚ} (h : p ∈ addScore sc c w) : p.1 = c ∨ p ∈ sc := by
  induction sc with
  | nil => simp [addScore] at h; simp [h]
  | cons x rest ih =>
    obtain ⟨c', w'⟩ := x
    rw [addScore] at h
    by_cases hc : c' = c
    · rw [if_pos hc] at h
      rcases List.mem_cons.mp h with h1 | h2
      · left; rw [h1]; exact hc
      · right; exact List.mem_cons_of_mem _ h2
    · rw [if_neg hc] at h
      rcases List.mem_cons.mp h with h1 | h2
      · right; simp [h1]
      · rcases ih h2 with h3 | h4
        · left; exact h3
        · right; exact List.mem_cons_of_mem _ h4

theorem scoreFoldBallot_not_winner (w : List Candidate) (x : ℚ) :
    ∀ (cs : List Candidate) (sc : List (Candidate × ℚ)), (∀ p ∈ sc, p.1 ∉ w) →
    ∀ p ∈ cs.foldl (fun s c => if c ∈ w then s else addScore s c x) sc, p.1 ∉ w := by
  intro cs
  induction cs with
  | nil => intro sc hsc p hp; exact hsc p hp
  | cons c rest ih =>
    intro sc hsc p hp
    rw [List.foldl_cons] at hp
    refine ih _ ?_ p hp
    intro q hq
    by_cases hc : c ∈ w
    · rw [if_pos hc] at hq; exact hsc q hq
    · rw [if_neg hc] at hq
      rcases mem_addScore hq with h1 | h2
      · rw [h1]; exact hc
      · exact hsc q h2

theorem computeScores_not_winner (ballots : List Ballot) (w : List Candidate) :
    ∀ p ∈ computeScores ballots w, p.1 ∉ w := by
  have key : ∀ (bs : List Ballot) (sc : List (Candidate × ℚ)),
      (∀ p ∈ sc, p.1 ∉ w) →
      ∀ p ∈ bs.foldl
        (fun sc2 b => b.approved_candidates.foldl
          (fun s c => if c ∈ w then s else addScore s c b.weight) sc2) sc,
        p.1 ∉ w := by
    intro bs
    induction bs with
    | nil => intro sc hsc p hp; exact hsc p hp
    | cons b rest ih =>
      intro sc hsc p hp
      rw [List.foldl_cons] at hp
      exact ih _ (scoreFoldBallot_not_winner w b.weight b.approved_candidates sc hsc) p hp
  intro p hp
  rw [computeScores] at hp
  exact key ballots [] (by simp) p hp

theorem reweight_reweight (orig : List Ballot) (w w' : List Candidate) :
    reweight (reweight orig w) w' = reweight orig w' := by
  simp only [reweight, List.map_map]
  rfl

theorem reweight_map_approved (orig : List Ballot) (w : List Candidate) :
    (reweight orig w).map Ballot.approved_candidates
      = orig.map Ballot.approved_candidates := by
  simp only [reweight, List.map_map]
  rfl

theorem stateFor_reweight (orig : List Ballot) (w w' : List Candidate)
    (h : w' ≠ []) : reweight (stateFor orig w) w' = stateFor orig w' := by
  rw [stateFor, stateFor, if_neg h]
  by_cases hw : w = []
  · rw [if_pos hw]
  · rw [if_neg hw, reweight_reweight]

theorem stateFor_map_approved (orig : List Ballot) (w : List Candidate) :
    (stateFor orig w).map Ballot.approved_candidates
      = orig.map Ballot.approved_candidates := by
  rw [stateFor]
  by_cases hw : w = []
  · rw [if_pos hw]
  · rw [if_neg hw, reweight_map_approved]

theorem electLoop_zero (bs : List Ballot) (w : List Candidate) (rds : List Round) :
    electLoop 0 bs w rds = .ok ⟨w, rds, bs⟩ := rfl

theorem electLoop_succ_cons {bs : List Ballot} {w : List Candidate} {rds : List Round}
    {n : Nat} {p : Candidate × ℚ} {rest : List (Candidate × ℚ)}
    (hmc : most_common (computeScores bs w) = p :: rest) :
    electLoop (n + 1) bs w rds
      = electLoop n (reweight bs (w ++ [p.1])) (w ++ [p.1])
          (rds ++ [⟨p.1, computeScores bs w, sumWeights bs⟩]) := by
  rw [electLoop, hmc]

theorem electLoop_succ_nil {bs : List Ballot} {w : List Candidate} {rds : List Round}
    {n : Nat} (hmc : most_common (computeScores bs w) = []) :
    electLoop (n + 1) bs w rds = .raised .unpackValueError bs := by
  rw [electLoop, hmc]

theorem electLoop_master (orig : List Ballot) :
    ∀ (n : Nat) (bs : List Ballot) (w : List Candidate) (rds : List Round) (r : Result),
    bs = stateFor orig w →
    rds.length = w.length →
    (∀ j (hj : j < rds.length),
      (rds.get ⟨j, hj⟩).weighted_votes = sumWeights (stateFor orig (w.take j))) →
    (∀ j (hj : j < rds.length), ∀ p ∈ (rds.get ⟨j, hj⟩).scores, p.1 ∉ w.take j) →
    (∀ rd ∈ rds, FirstInsertedMax rd.winner rd.scores) →
    electLoop n bs w rds = .ok r →
    r.ballots = stateFor orig r.winners ∧
    (∃ t, r.winners = w ++ t) ∧
    r.winners.length = w.length + n ∧
    r.rounds.length = r.winners.length ∧
    (w.Nodup → r.winners.Nodup) ∧
    (∀ j (hj : j < r.rounds.length),
      (r.rounds.get ⟨j, hj⟩).weighted_votes
        = sumWeights (stateFor orig (r.winners.take j))) ∧
    (∀ j (hj : j < r.rounds.length),
      ∀ p ∈ (r.rounds.get ⟨j, hj⟩).scores, p.1 ∉ r.winners.take j) ∧
    (∀ rd ∈ r.rounds, FirstInsertedMax rd.winner rd.scores) := by
  intro n
  induction n with
  | zero =>
    intro bs w rds r hstate hlen hwv hexcl hfim h
    rw [electLoop_zero] at h
    have hr : r = ⟨w, rds, bs⟩ := by
      cases h
      rfl
    subst hr
    exact ⟨hstate, ⟨[], by simp⟩, by simp, hlen, fun hh => hh, hwv, hexcl, hfim⟩
  | succ n ih =>
    intro bs w rds r hstate hlen hwv hexcl hfim h
    cases hmc : most_common (computeScores bs w) with
    | nil =>
      rw [electLoop_succ_nil hmc] at h
      exact ElectOutcome.noConfusion h
    | cons p rest =>
      rw [electLoop_succ_cons hmc] at h
      have hpmem : p ∈ computeScores bs w := by
        apply mem_most_common
        rw [hmc]
        exact List.mem_cons_self p rest
      have hpw : p.1 ∉ w := computeScores_not_winner bs w p hpmem
      have hfm : FirstInsertedMax p.1 (computeScores bs w) := by
        apply firstMaxPair_firstInsertedMax
        rw [← head?_most_common, hmc]
        rfl
      have hne : w ++ [p.1] ≠ [] := by simp
      have hstate' : reweight bs (w ++ [p.1]) = stateFor orig (w ++ [p.1]) := by
        rw [hstate, stateFor_reweight orig w _ hne]
      have hlen' : (rds ++ [(⟨p.1, computeScores bs w, sumWeights bs⟩ : Round)]).length
          = (w ++ [p.1]).length := by
        simp [hlen]
      have hwv' : ∀ j (hj : j < (rds ++ [(⟨p.1, computeScores bs w, sumWeights bs⟩ : Round)]).length),
          ((rds ++ [(⟨p.1, computeScores bs w, sumWeights bs⟩ : Round)]).get ⟨j, hj⟩).weighted_votes
            = sumWeights (stateFor orig ((w ++ [p.1]).take j)) := by
        intro j hj
        have hj' : j < rds.length + 1 := by simpa using hj
        rcases Nat.lt_succ_iff_lt_or_eq.mp hj' with hlt | heq
        · rw [List.get_eq_getElem]
          rw [List.getElem_append_left hlt]
          rw [List.take_append_of_le_length (by omega : j ≤ w.length)]
          have := hwv j hlt
          rw [List.get_eq_getElem] at this
          exact this
        · rw [List.get_eq_getElem]
          rw [List.getElem_concat_length rds _ j heq]
          have htake : (w ++ [p.1]).take j = w := by
            rw [heq, hlen]
            exact List.take_left w [p.1]
          rw [htake]
          dsimp only
          rw [hstate]
      have hexcl' : ∀ j (hj : j < (rds ++ [(⟨p.1, computeScores bs w, sumWeights bs⟩ : Round)]).length),
          ∀ q ∈ ((rds ++ [(⟨p.1, computeScores bs w, sumWeights bs⟩ : Round)]).get ⟨j, hj⟩).scores,
            q.1 ∉ (w ++ [p.1]).take j := by
        intro j hj
        have hj' : j < rds.length + 1 := by simpa using hj
        rcases Nat.lt_succ_iff_lt_or_eq.mp hj' with hlt | heq
        · rw [List.get_eq_getElem]
          rw [List.getElem_append_left hlt]
          rw [List.take_append_of_le_length (by omega : j ≤ w.length)]
          intro q hq
          have := hexcl j hlt
          rw [List.get_eq_getElem] at this
          exact this q hq
        · rw [List.get_eq_getElem]
          rw [List.getElem_concat_length rds _ j heq]
          have htake : (w ++ [p.1]).take j = w := by
            rw [heq, hlen]
            exact List.take_left w [p.1]
          rw [htake]
          dsimp only
          exact computeScores_not_winner bs w
      have hfim' : ∀ rd ∈ rds ++ [(⟨p.1, computeScores bs w, sumWeights bs⟩ : Round)],
          FirstInsertedMax rd.winner rd.scores := by
        intro rd hrd
        rcases List.mem_append.mp hrd with hrd1 | hrd2
        · exact hfim rd hrd1
        · have : rd = (⟨p.1, computeScores bs w, sumWeights bs⟩ : Round) := by
            simpa using hrd2
          rw [this]
          exact hfm
      rcases ih _ _ _ r hstate' hlen' hwv' hexcl' hfim' h with
        ⟨c1, ⟨t, hext⟩, c3, c4, c5, c6, c7, c8⟩
      refine ⟨c1, ⟨p.1 :: t, ?_⟩, ?_, c4, ?_, c6, c7, c8⟩
      · rw [hext, List.append_assoc]
        rfl
      · rw [c3]
        simp
        omega
      · intro hnd
        apply c5
        rw [List.nodup_append]
        exact ⟨hnd, List.nodup_singleton _, List.disjoint_singleton.mpr hpw⟩

theorem approval_election_master (ballots : List Ballot) (seats : Nat) (r : Result)
    (h : approval_election ballots seats = .ok r) :
    r.ballots = stateFor ballots r.winners ∧
    r.winners.length = seats ∧
    r.rounds.length = r.winners.length ∧
    r.winners.Nodup ∧
    (∀ j (hj : j < r.rounds.length),
      (r.rounds.get ⟨j, hj⟩).weighted_votes
        = sumWeights (stateFor ballots (r.winners.take j))) ∧
    (∀ j (hj : j < r.rounds.length),
      ∀ p ∈ (r.rounds.get ⟨j, hj⟩).scores, p.1 ∉ r.winners.take j) ∧
    (∀ rd ∈ r.rounds, FirstInsertedMax rd.winner rd.scores) := by
  rw [approval_election] at h
  have hm := electLoop_master ballots seats ballots [] [] r (by simp [stateFor]) rfl
    (fun j hj => absurd hj (Nat.not_lt_zero j))
    (fun j hj => absurd hj (Nat.not_lt_zero j))
    (fun rd hrd => absurd hrd (List.not_mem_nil rd)) h
  obtain ⟨c1, _, c3, c4, c5, c6, c7, c8⟩ := hm
  exact ⟨c1, by simpa using c3, c4, c5 List.nodup_nil, c6, c7, c8⟩

/-- C1 (amended): whenever the scoring mapping computed at the start of a
round is empty while seats remain unfilled, the engine fails by raising the
generic tuple-unpacking `ValueError` — the code has no dedicated
InsufficientCandidates condition — and no `Result` is produced.  This covers
the zero-ballot case. -/
theorem electLoop_empty_scores_raises_unpack (ballots : List Ballot)
    (winners : List Candidate) (rounds : List Round) (n : Nat) (hn : 0 < n)
    (hsc : computeScores ballots winners = []) :
    electLoop n ballots winners rounds = .raised .unpackValueError ballots := by
  cases n with
  | zero => exact absurd hn (lt_irrefl 0)
  | succ m =>
    apply electLoop_succ_nil
    rw [hsc]
    rfl

/-- C1 counterexample: zero ballots with one seat fail with the unpacking
`ValueError`, not with a dedicated InsufficientCandidates signal. -/
theorem approval_election_no_insufficient_condition :
    approval_election [] 1 = .raised .unpackValueError [] ∧
    approval_election [] 1 ≠ .raised .insufficientCandidates [] := by
  have hv : approval_election [] 1 = .raised .unpackValueError [] := by
    norm_num [approval_election, electLoop, computeScores, most_common]
  refine ⟨hv, ?_⟩
  rw [hv]
  intro hc
  injection hc with h1 h2
  exact ElectionError.noConfusion h1

/-- C1 witness: a single ballot approving nobody, one seat. -/
theorem electLoop_empty_scores_raises_unpack_witness :
    (0 : Nat) < 1 ∧ computeScores [⟨[], 1⟩] [] = [] ∧
    electLoop 1 [⟨[], 1⟩] [] [] = .raised .unpackValueError [⟨[], 1⟩] :=
  ⟨Nat.zero_lt_one, rfl,
    electLoop_empty_scores_raises_unpack _ _ _ _ Nat.zero_lt_one rfl⟩

/-- C2: in every recorded round the winner's snapshot entry strictly exceeds
every score entry inserted before it and is at least every entry of the
snapshot — among candidates tied for the highest score, the one whose entry
was first inserted during the scoring pass wins. -/
theorem approval_election_tie_break (ballots : List Ballot) (seats : Nat)
    (r : Result) (h : approval_election ballots seats = .ok r) :
    ∀ rd ∈ r.rounds, FirstInsertedMax rd.winner rd.scores :=
  (approval_election_master ballots seats r h).2.2.2.2.2.2

/-- C2 witness: one ballot approving A then B, one seat — A and B tie at 1,
and A, the first-inserted, wins. -/
theorem approval_election_tie_break_witness :
    approval_election [⟨[⟨"A"⟩, ⟨"B"⟩], 1⟩] 1
      = .ok ⟨[⟨"A"⟩], [⟨⟨"A"⟩, [(⟨"A"⟩, 1), (⟨"B"⟩, 1)], 1⟩],
          [⟨[⟨"A"⟩, ⟨"B"⟩], 1/2⟩]⟩ ∧
    FirstInsertedMax ⟨"A"⟩ [(⟨"A"⟩, 1), (⟨"B"⟩, 1)] := by
  have hAB : ("A" : String) ≠ "B" := by decide
  have hBA : ("B" : String) ≠ "A" := by decide
  have h : approval_election [⟨[⟨"A"⟩, ⟨"B"⟩], 1⟩] 1
      = .ok ⟨[⟨"A"⟩], [⟨⟨"A"⟩, [(⟨"A"⟩, 1), (⟨"B"⟩, 1)], 1⟩],
          [⟨[⟨"A"⟩, ⟨"B"⟩], 1/2⟩]⟩ := by
    norm_num [approval_election, electLoop, computeScores, addScore, most_common,
      insertDesc, reweight, sumWeights, List.countP_cons, List.countP_nil,
      Candidate.mk.injEq, hAB, hBA]
  refine ⟨h, ?_⟩
  have hall := approval_election_tie_break _ _ _ h
  exact hall ⟨⟨"A"⟩, [(⟨"A"⟩, 1), (⟨"B"⟩, 1)], 1⟩ (List.mem_singleton.mpr rfl)

/-- C3: with all weights initialized to 1, after the final round of a
`k`-seat run every ballot's weight is `1 / (1 + m)` where `m` counts the
entries of its approved list that are among the winners, and a ballot
approving no winner has weight 1. -/
theorem approval_election_reweight_law (ballots : List Ballot) (k : Nat)
    (r : Result) (hw : ∀ b ∈ ballots, b.weight = 1) (hk : 1 ≤ k)
    (h : approval_election ballots k = .ok r) :
    r.ballots.length = ballots.length ∧
    ∀ i (hi : i < r.ballots.length) (hi2 : i < ballots.length),
      (r.ballots.get ⟨i, hi⟩).weight
        = 1 / (1 + (((ballots.get ⟨i, hi2⟩).approved_candidates.countP
            (fun c => decide (c ∈ r.winners))) : ℚ)) ∧
      ((ballots.get ⟨i, hi2⟩).approved_candidates.countP
            (fun c => decide (c ∈ r.winners)) = 0 →
        (r.ballots.get ⟨i, hi⟩).weight = 1) := by
  obtain ⟨c1, c2, _, _, _, _, _⟩ := approval_election_master ballots k r h
  have hwne : r.winners ≠ [] := by
    intro hnil
    rw [hnil] at c2
    simp at c2
    omega
  have hb : r.ballots = reweight ballots r.winners := by
    rw [c1, stateFor, if_neg hwne]
  constructor
  · rw [hb]
    simp [reweight]
  · intro i hi hi2
    have hget : r.ballots.get ⟨i, hi⟩
        = { ballots.get ⟨i, hi2⟩ with
            weight := 1 / (1 + (((ballots.get ⟨i, hi2⟩).approved_candidates.countP
              (fun c => decide (c ∈ r.winners))) : ℚ)) } := by
      rw [List.get_of_eq hb ⟨i, hi⟩]
      simp [reweight, List.get_eq_getElem]
    constructor
    · rw [hget]
    · intro hz
      rw [hget, hz]
      norm_num

/-- C3 witness: one ballot approving A, one seat; its final weight is
`1/2 = 1/(1+1)`. -/
theorem approval_election_reweight_law_witness :
    (⟨[⟨"A"⟩], 1/2⟩ : Ballot).weight
      = 1 / (1 + ((([(⟨"A"⟩ : Candidate)]).countP
          (fun c => decide (c ∈ [(⟨"A"⟩ : Candidate)]))) : ℚ)) := by
  have h : approval_election [⟨[⟨"A"⟩], 1⟩] 1
      = .ok ⟨[⟨"A"⟩], [⟨⟨"A"⟩, [(⟨"A"⟩, 1)], 1⟩], [⟨[⟨"A"⟩], 1/2⟩]⟩ := by
    norm_num [approval_election, electLoop, computeScores, addScore, most_common,
      insertDesc, reweight, sumWeights, List.countP_cons, List.countP_nil,
      Candidate.mk.injEq]
  have hlaw := approval_election_reweight_law [⟨[⟨"A"⟩], 1⟩] 1
    ⟨[⟨"A"⟩], [⟨⟨"A"⟩, [(⟨"A"⟩, 1)], 1⟩], [⟨[⟨"A"⟩], 1/2⟩]⟩
    (by intro b hb; rw [List.mem_singleton] at hb; rw [hb]) le_rfl h
  exact (hlaw.2 0 (by norm_num) (by norm_num)).1

/-- C5: determinism — structurally identical ballot lists and equal seat
counts give identical outcomes (hence the same winners, the same rounds with
equal score maps and weighted vote totals, and equal final ballot weights). -/
theorem approval_election_deterministic (b₁ b₂ : List Ballot) (s₁ s₂ : Nat)
    (hb : b₁ = b₂) (hs : s₁ = s₂) :
    approval_election b₁ s₁ = approval_election b₂ s₂ := by
  rw [hb, hs]

/-- C5 witness. -/
theorem approval_election_deterministic_witness :
    approval_election [⟨[⟨"A"⟩], 1⟩] 1 = approval_election [⟨[⟨"A"⟩], 1⟩] 1 :=
  approval_election_deterministic _ _ _ _ rfl rfl

/-- C6: a successful run returns exactly `seats` winners with no duplicate
candidate. -/
theorem approval_election_fills_seats (ballots : List Ballot) (seats : Nat)
    (r : Result) (h : approval_election ballots seats = .ok r) :
    r.winners.length = seats ∧ r.winners.Nodup :=
  ⟨(approval_election_master ballots seats r h).2.1,
    (approval_election_master ballots seats r h).2.2.2.1⟩

/-- C6 witness. -/
theorem approval_election_fills_seats_witness :
    ([(⟨"A"⟩ : Candidate)]).length = 1 ∧ ([(⟨"A"⟩ : Candidate)]).Nodup := by
  have h : approval_election [⟨[⟨"A"⟩], 1⟩] 1
      = .ok ⟨[⟨"A"⟩], [⟨⟨"A"⟩, [(⟨"A"⟩, 1)], 1⟩], [⟨[⟨"A"⟩], 1/2⟩]⟩ := by
    norm_num [approval_election, electLoop, computeScores, addScore, most_common,
      insertDesc, reweight, sumWeights, List.countP_cons, List.countP_nil,
      Candidate.mk.injEq]
  exact approval_election_fills_seats _ _ _ h

/-- C7: no key of the score snapshot of round `i` (0-based) is a candidate
already elected when round `i` begins, i.e. one of the first `i` winners. -/
theorem approval_election_scores_exclude_elected (ballots : List Ballot)
    (seats : Nat) (r : Result) (h : approval_election ballots seats = .ok r) :
    ∀ i (hi : i < r.rounds.length),
      ∀ p ∈ (r.rounds.get ⟨i, hi⟩).scores, p.1 ∉ r.winners.take i :=
  (approval_election_master ballots seats r h).2.2.2.2.2.1

/-- C7 witness: in the two-round SPAV example, round 2's only score key B is
not among the winners elected before round 2. -/
theorem approval_election_scores_exclude_elected_witness :
    (⟨"B"⟩ : Candidate) ∉ ([(⟨"A"⟩ : Candidate), ⟨"B"⟩]).take 1 := by
  have hAB : ("A" : String) ≠ "B" := by decide
  have hBA : ("B" : String) ≠ "A" := by decide
  have h : approval_election
      [⟨[⟨"A"⟩, ⟨"B"⟩], 1⟩, ⟨[⟨"A"⟩, ⟨"B"⟩], 1⟩, ⟨[⟨"A"⟩], 1⟩, ⟨[⟨"B"⟩], 1⟩] 2
      = .ok ⟨[⟨"A"⟩, ⟨"B"⟩],
          [⟨⟨"A"⟩, [(⟨"A"⟩, 3), (⟨"B"⟩, 3)], 4⟩, ⟨⟨"B"⟩, [(⟨"B"⟩, 2)], 5/2⟩],
          [⟨[⟨"A"⟩, ⟨"B"⟩], 1/3⟩, ⟨[⟨"A"⟩, ⟨"B"⟩], 1/3⟩,
            ⟨[⟨"A"⟩], 1/2⟩, ⟨[⟨"B"⟩], 1/2⟩]⟩ := by
    norm_num [approval_election, electLoop, computeScores, addScore, most_common,
      insertDesc, reweight, sumWeights, List.countP_cons, List.countP_nil,
      Candidate.mk.injEq, hAB, hBA]
  exact approval_election_scores_exclude_elected _ _ _ h 1 (by norm_num)
    (⟨"B"⟩, 2) (List.mem_singleton.mpr rfl)

/-- C8: round `i`'s recorded `weighted_votes` is the sum of the ballot
weights as they stand entering round `i` — the weights produced by round
`i-1`'s reweighting (`stateFor` with the first `i` winners), or the initial
weights for the first round (`take 0 = []`). -/
theorem approval_election_weighted_votes_sum (ballots : List Ballot)
    (seats : Nat) (r : Result) (h : approval_election ballots seats = .ok r) :
    ∀ i (hi : i < r.rounds.length),
      (r.rounds.get ⟨i, hi⟩).weighted_votes
        = sumWeights (stateFor ballots (r.winners.take i)) :=
  (approval_election_master ballots seats r h).2.2.2.2.1

/-- C8 witness: round 2 of the SPAV example records `5/2`, the weight sum
after round 1's reweighting. -/
theorem approval_election_weighted_votes_sum_witness :
    (5 : ℚ)/2 = sumWeights (stateFor
      [⟨[⟨"A"⟩, ⟨"B"⟩], 1⟩, ⟨[⟨"A"⟩, ⟨"B"⟩], 1⟩, ⟨[⟨"A"⟩], 1⟩, ⟨[⟨"B"⟩], 1⟩]
      (([(⟨"A"⟩ : Candidate), ⟨"B"⟩]).take 1)) := by
  have hAB : ("A" : String) ≠ "B" := by decide
  have hBA : ("B" : String) ≠ "A" := by decide
  have h : approval_election
      [⟨[⟨"A"⟩, ⟨"B"⟩], 1⟩, ⟨[⟨"A"⟩, ⟨"B"⟩], 1⟩, ⟨[⟨"A"⟩], 1⟩, ⟨[⟨"B"⟩], 1⟩] 2
      = .ok ⟨[⟨"A"⟩, ⟨"B"⟩],
          [⟨⟨"A"⟩, [(⟨"A"⟩, 3), (⟨"B"⟩, 3)], 4⟩, ⟨⟨"B"⟩, [(⟨"B"⟩, 2)], 5/2⟩],
          [⟨[⟨"A"⟩, ⟨"B"⟩], 1/3⟩, ⟨[⟨"A"⟩, ⟨"B"⟩], 1/3⟩,
            ⟨[⟨"A"⟩], 1/2⟩, ⟨[⟨"B"⟩], 1/2⟩]⟩ := by
    norm_num [approval_election, electLoop, computeScores, addScore, most_common,
      insertDesc, reweight, sumWeights, List.countP_cons, List.countP_nil,
      Candidate.mk.injEq, hAB, hBA]
  exact approval_election_weighted_votes_sum _ _ _ h 1 (by norm_num)

/-- C9: a successful run leaves every ballot's approved-candidate list (and
hence every candidate name), the ballot count and the ballot order unchanged:
only weights are mutated.  The result's `ballots` field is the in-place
mutated input list, so its structure agrees with the input's. -/
theorem approval_election_preserves_ballot_structure (ballots : List Ballot)
    (seats : Nat) (r : Result) (h : approval_election ballots seats = .ok r) :
    r.ballots.map Ballot.approved_candidates
        = ballots.map Ballot.approved_candidates ∧
    r.ballots.length = ballots.length := by
  obtain ⟨c1, _, _, _, _, _, _⟩ := approval_election_master ballots seats r h
  constructor
  · rw [c1, stateFor_map_approved]
  · have := congrArg List.length (c1.trans rfl)
    rw [stateFor] at this
    by_cases hw : r.winners = []
    · rw [if_pos hw] at this
      exact this
    · rw [if_neg hw] at this
      simpa [reweight] using this

/-- C9 witness. -/
theorem approval_election_preserves_ballot_structure_witness :
    ([(⟨[⟨"A"⟩], 1/2⟩ : Ballot)]).map Ballot.approved_candidates
        = ([(⟨[⟨"A"⟩], 1⟩ : Ballot)]).map Ballot.approved_candidates ∧
    ([(⟨[⟨"A"⟩], 1/2⟩ : Ballot)]).length = ([(⟨[⟨"A"⟩], 1⟩ : Ballot)]).length := by
  have h : approval_election [⟨[⟨"A"⟩], 1⟩] 1
      = .ok ⟨[⟨"A"⟩], [⟨⟨"A"⟩, [(⟨"A"⟩, 1)], 1⟩], [⟨[⟨"A"⟩], 1/2⟩]⟩ := by
    norm_num [approval_election, electLoop, computeScores, addScore, most_common,
      insertDesc, reweight, sumWeights, List.countP_cons, List.countP_nil,
      Candidate.mk.injEq]
  exact approval_election_preserves_ballot_structure _ _ _ h

/-- C10: with one ballot approving only A and two seats, the call fails in
round 2, after round 1's reweighting has already halved the ballot's weight
in place; the weight observed by the caller at failure is `1/2`, not the
original `1` — failure is not atomic. -/
theorem approval_election_failure_mutates_weights :
    approval_election [⟨[⟨"A"⟩], 1⟩] 2
      = .raised .unpackValueError [⟨[⟨"A"⟩], 1/2⟩] ∧ ((1 : ℚ)/2 ≠ 1) := by
  constructor
  · norm_num [approval_election, electLoop, computeScores, addScore, most_common,
      insertDesc, reweight, sumWeights, List.countP_cons, List.countP_nil,
      Candidate.mk.injEq]
  · norm_num

theorem computeScores_nil_fold (ballots : List Ballot) :
    computeScores ballots []
      = ballots.foldl
          (fun sc b => b.approved_candidates.foldl
            (fun s c => addScore s c b.weight) sc) [] := by
  rfl

theorem map_fst_addScore (sc : List (Candidate × ℚ)) (c : Candidate) (w : ℚ) :
    (addScore sc c w).map Prod.fst
      = if c ∈ sc.map Prod.fst then sc.map Prod.fst
        else sc.map Prod.fst ++ [c] := by
  induction sc with
  | nil => simp [addScore]
  | cons x rest ih =>
    obtain ⟨c', w'⟩ := x
    rw [addScore]
    by_cases hc : c' = c
    · subst hc
      simp
    · rw [if_neg hc]
      simp only [List.map_cons]
      rw [ih]
      by_cases hm : c ∈ rest.map Prod.fst
      · rw [if_pos hm, if_pos (by simp [hm])]
      · rw [if_neg hm, if_neg (by simp [hm, Ne.symm hc])]
        simp

theorem map_fst_scoreFold (w : ℚ) :
    ∀ (cs : List Candidate) (sc : List (Candidate × ℚ)),
    ((cs.foldl (fun s c => addScore s c w) sc).map Prod.fst)
      = cs.foldl (fun a c => if c ∈ a then a else a ++ [c]) (sc.map Prod.fst) := by
  intro cs
  induction cs with
  | nil => intro sc; rfl
  | cons c cs' ih =>
    intro sc
    rw [List.foldl_cons, List.foldl_cons, ih, map_fst_addScore]

theorem map_fst_ballotFold :
    ∀ (bs : List Ballot) (sc : List (Candidate × ℚ)),
    ((bs.foldl (fun sc2 b => b.approved_candidates.foldl
        (fun s c => addScore s c b.weight) sc2) sc).map Prod.fst)
      = bs.foldl (fun acc b => b.approved_candidates.foldl
          (fun a c => if c ∈ a then a else a ++ [c]) acc) (sc.map Prod.fst) := by
  intro bs
  induction bs with
  | nil => intro sc; rfl
  | cons b bs' ih =>
    intro sc
    rw [List.foldl_cons, List.foldl_cons, ih, map_fst_scoreFold]

theorem map_fst_computeScores_nil (ballots : List Ballot) :
    (computeScores ballots []).map Prod.fst = seenCandidates ballots := by
  rw [computeScores_nil_fold, seenCandidates]
  have h := map_fst_ballotFold ballots []
  simpa using h

theorem seenStep_nodup :
    ∀ (cs : List Candidate) (acc : List Candidate), acc.Nodup →
    (cs.foldl (fun a c => if c ∈ a then a else a ++ [c]) acc).Nodup := by
  intro cs
  induction cs with
  | nil => exact fun acc h => h
  | cons c cs' ih =>
    intro acc hacc
    rw [List.foldl_cons]
    apply ih
    by_cases hm : c ∈ acc
    · rw [if_pos hm]; exact hacc
    · rw [if_neg hm]
      rw [List.nodup_append]
      exact ⟨hacc, List.nodup_singleton c, List.disjoint_singleton.mpr hm⟩

theorem seenCandidates_nodup (ballots : List Ballot) :
    (seenCandidates ballots).Nodup := by
  rw [seenCandidates]
  have key : ∀ (bs : List Ballot) (acc : List Candidate), acc.Nodup →
      (bs.foldl (fun acc2 b => b.approved_candidates.foldl
        (fun a c => if c ∈ a then a else a ++ [c]) acc2) acc).Nodup := by
    intro bs
    induction bs with
    | nil => exact fun acc h => h
    | cons b bs' ih =>
      intro acc hacc
      rw [List.foldl_cons]
      exact ih _ (seenStep_nodup _ _ hacc)
  exact key ballots [] List.nodup_nil

theorem scoreOf_addScore (sc : List (Candidate × ℚ)) (c d : Candidate) (w : ℚ) :
    scoreOf (addScore sc c w) d = scoreOf sc d + if c = d then w else 0 := by
  induction sc with
  | nil =>
    rw [addScore]
    simp [scoreOf]
  | cons x rest ih =>
    obtain ⟨c', w'⟩ := x
    rw [addScore]
    by_cases hc : c' = c
    · subst hc
      by_cases hd : c' = d <;> simp [scoreOf, hd]
    · rw [if_neg hc]
      by_cases hd : c' = d
      · subst hd
        have hcd : ¬(c = c') := fun h => hc h.symm
        simp [scoreOf, hcd]
      · simp [scoreOf, hd, ih]

theorem scoreOf_scoreFold (w : ℚ) (c : Candidate) :
    ∀ (cs : List Candidate) (sc : List (Candidate × ℚ)),
    scoreOf (cs.foldl (fun s d => addScore s d w) sc) c
      = scoreOf sc c + w * ((cs.countP (fun d => decide (d = c))) : ℚ) := by
  intro cs
  induction cs with
  | nil => intro sc; simp
  | cons d cs' ih =>
    intro sc
    rw [List.foldl_cons, ih, scoreOf_addScore, List.countP_cons]
    by_cases hd : d = c
    · simp [hd]
      ring
    · simp [hd]

theorem scoreOf_ballotFold (c : Candidate) :
    ∀ (bs : List Ballot) (sc : List (Candidate × ℚ)),
    scoreOf (bs.foldl (fun sc2 b => b.approved_candidates.foldl
        (fun s d => addScore s d b.weight) sc2) sc) c
      = scoreOf sc c
        + ((bs.map (fun b => b.weight
            * ((b.approved_candidates.countP (fun d => decide (d = c))) : ℚ))).sum) := by
  intro bs
  induction bs with
  | nil => intro sc; simp
  | cons b bs' ih =>
    intro sc
    rw [List.foldl_cons, ih, scoreOf_scoreFold, List.map_cons, List.sum_cons]
    ring

theorem countP_eq_self_indicator (l : List Candidate) (c : Candidate)
    (h : l.Nodup) :
    l.countP (fun d => decide (d = c)) = if c ∈ l then 1 else 0 := by
  induction l with
  | nil => simp
  | cons a l' ih =>
    rw [List.countP_cons]
    rcases List.nodup_cons.mp h with ⟨ha, hl'⟩
    by_cases hac : a = c
    · subst hac
      rw [if_pos (List.mem_cons_self a l')]
      simp [ih hl', ha]
    · have hca : ¬(c = a) := fun hh => hac hh.symm
      simp [hac, hca, ih hl']

theorem sum_weight_indicator (c : Candidate) :
    ∀ (bs : List Ballot), (∀ b ∈ bs, b.weight = 1) →
    (∀ b ∈ bs, b.approved_candidates.Nodup) →
    ((bs.map (fun b => b.weight
        * ((b.approved_candidates.countP (fun d => decide (d = c))) : ℚ))).sum)
      = ((bs.countP (fun b => decide (c ∈ b.approved_candidates))) : ℚ) := by
  intro bs
  induction bs with
  | nil => intro _ _; simp
  | cons b bs' ih =>
    intro hw hnd
    rw [List.map_cons, List.sum_cons, List.countP_cons]
    rw [ih (fun x hx => hw x (List.mem_cons_of_mem b hx))
      (fun x hx => hnd x (List.mem_cons_of_mem b hx))]
    rw [hw b (List.mem_cons_self b bs')]
    rw [countP_eq_self_indicator _ _ (hnd b (List.mem_cons_self b bs'))]
    by_cases hm : c ∈ b.approved_candidates
    · simp [hm]
      ring
    · simp [hm]

theorem scoreOf_computeScores_nil (ballots : List Ballot)
    (hw : ∀ b ∈ ballots, b.weight = 1)
    (hnd : ∀ b ∈ ballots, b.approved_candidates.Nodup) (c : Candidate) :
    scoreOf (computeScores ballots []) c = ((rawApprovalCount ballots c) : ℚ) := by
  rw [computeScores_nil_fold, scoreOf_ballotFold,
    sum_weight_indicator c ballots hw hnd, rawApprovalCount]
  simp [scoreOf]

theorem eq_map_scoreOf :
    ∀ (sc : List (Candidate × ℚ)), (sc.map Prod.fst).Nodup →
    sc = (sc.map Prod.fst).map (fun c => (c, scoreOf sc c)) := by
  intro sc
  induction sc with
  | nil => intro _; rfl
  | cons x rest ih =>
    intro hnd
    obtain ⟨c, w⟩ := x
    rw [List.map_cons] at hnd
    rcases List.nodup_cons.mp hnd with ⟨hc, hrest⟩
    rw [List.map_cons, List.map_cons]
    have hfun : ∀ d ∈ rest.map Prod.fst,
        (d, scoreOf ((c, w) :: rest) d) = (d, scoreOf rest d) := by
      intro d hd
      have hdc : ¬(c = d) := fun hh => hc (hh ▸ hd)
      simp [scoreOf, hdc]
    rw [List.map_congr_left hfun, ← ih hrest]
    simp [scoreOf]

theorem computeScores_nil_struct (ballots : List Ballot)
    (hw : ∀ b ∈ ballots, b.weight = 1)
    (hnd : ∀ b ∈ ballots, b.approved_candidates.Nodup) :
    computeScores ballots []
      = (seenCandidates ballots).map
          (fun c => (c, ((rawApprovalCount ballots c) : ℚ))) := by
  have hkeys := map_fst_computeScores_nil ballots
  have hnodup : ((computeScores ballots []).map Prod.fst).Nodup := by
    rw [hkeys]
    exact seenCandidates_nodup ballots
  have heq := eq_map_scoreOf (computeScores ballots []) hnodup
  calc computeScores ballots []
      = (List.map Prod.fst (computeScores ballots [])).map
          (fun c => (c, scoreOf (computeScores ballots []) c)) := heq
    _ = (seenCandidates ballots).map
          (fun c => (c, scoreOf (computeScores ballots []) c)) := by rw [hkeys]
    _ = (seenCandidates ballots).map
          (fun c => (c, ((rawApprovalCount ballots c) : ℚ))) :=
      List.map_congr_left
        (fun c _ => by rw [scoreOf_computeScores_nil ballots hw hnd c])

theorem firstMaxPair_map (f : Candidate → ℚ) :
    ∀ (cs : List Candidate),
    firstMaxPair (cs.map (fun c => (c, f c)))
      = Option.map (fun c => (c, f c)) (firstMaxBy f cs) := by
  intro cs
  induction cs with
  | nil => rfl
  | cons c cs' ih =>
    rw [List.map_cons, firstMaxPair, firstMaxBy, ih]
    cases hfb : firstMaxBy f cs' with
    | none => rfl
    | some d =>
      dsimp only [Option.map]
      by_cases hgt : f d > f c <;> simp [hgt]

theorem firstMaxBy_natCast (g : Candidate → ℕ) :
    ∀ (cs : List Candidate),
    firstMaxBy (fun c => ((g c : ℕ) : ℚ)) cs = firstMaxBy g cs := by
  intro cs
  induction cs with
  | nil => rfl
  | cons c cs' ih =>
    simp only [firstMaxBy]
    rw [ih]
    cases hfb : firstMaxBy g cs' with
    | none => rfl
    | some d =>
      dsimp only
      have hiff : ((g d : ℕ) : ℚ) > ((g c : ℕ) : ℚ) ↔ g d > g c := by
        exact_mod_cast Iff.rfl
      by_cases hgt : g d > g c
      · rw [if_pos (hiff.mpr hgt), if_pos hgt]
      · rw [if_neg (fun hh => hgt (hiff.mp hh)), if_neg hgt]

/-- C4 (amended): for one seat, with all ballot weights at 1 and no ballot
approving the same candidate twice, a successful run's single winner is the
candidate with the maximum raw approval count across ballots (the number of
ballots approving them), ties broken by first-seen order. -/
theorem approval_election_single_seat_raw_count (ballots : List Ballot)
    (r : Result) (hw : ∀ b ∈ ballots, b.weight = 1)
    (hnd : ∀ b ∈ ballots, b.approved_candidates.Nodup)
    (h : approval_election ballots 1 = .ok r) :
    r.winners = (specSingleSeatWinner ballots).toList := by
  rw [approval_election] at h
  have h1 : electLoop (0 + 1) ballots [] [] = .ok r := h
  cases hmc : most_common (computeScores ballots []) with
  | nil =>
    rw [@electLoop_succ_nil ballots [] [] 0 hmc] at h1
    exact ElectOutcome.noConfusion h1
  | cons p rest =>
    rw [@electLoop_succ_cons ballots [] [] 0 p rest hmc] at h1
    rw [electLoop_zero] at h1
    have hr : r = ⟨[] ++ [p.1],
        [] ++ [⟨p.1, computeScores ballots [], sumWeights ballots⟩],
        reweight ballots ([] ++ [p.1])⟩ := by
      cases h1
      rfl
    have hfmp : firstMaxPair (computeScores ballots []) = some p := by
      rw [← head?_most_common, hmc]
      rfl
    rw [computeScores_nil_struct ballots hw hnd] at hfmp
    rw [firstMaxPair_map] at hfmp
    rw [firstMaxBy_natCast] at hfmp
    cases hfb : firstMaxBy (rawApprovalCount ballots) (seenCandidates ballots) with
    | none =>
      rw [hfb] at hfmp
      exact absurd hfmp (by simp)
    | some d =>
      rw [hfb] at hfmp
      have hp : (d, ((rawApprovalCount ballots d) : ℚ)) = p := by
        simpa using hfmp
      have hspec : specSingleSeatWinner ballots = some d := by
        rw [specSingleSeatWinner, hfb]
      rw [hr, hspec]
      show [p.1] = [d]
      rw [← hp]

/-- C4 counterexample: a ballot approving A twice makes A's weighted score 2
off a single ballot; the code elects A (first-inserted among the tied), while
the raw-approval-count winner is B with two approving ballots. -/
theorem approval_election_single_seat_raw_count_counterexample :
    approval_election [⟨[⟨"A"⟩, ⟨"A"⟩], 1⟩, ⟨[⟨"B"⟩], 1⟩, ⟨[⟨"B"⟩], 1⟩] 1
      = .ok ⟨[⟨"A"⟩], [⟨⟨"A"⟩, [(⟨"A"⟩, 2), (⟨"B"⟩, 2)], 3⟩],
          [⟨[⟨"A"⟩, ⟨"A"⟩], 1/3⟩, ⟨[⟨"B"⟩], 1⟩, ⟨[⟨"B"⟩], 1⟩]⟩ ∧
    specSingleSeatWinner [⟨[⟨"A"⟩, ⟨"A"⟩], 1⟩, ⟨[⟨"B"⟩], 1⟩, ⟨[⟨"B"⟩], 1⟩]
      = some ⟨"B"⟩ ∧
    ([(⟨"A"⟩ : Candidate)] : List Candidate)
      ≠ (some (⟨"B"⟩ : Candidate)).toList := by
  have hAB : ("A" : String) ≠ "B" := by decide
  have hBA : ("B" : String) ≠ "A" := by decide
  refine ⟨?_, ?_, ?_⟩
  · norm_num [approval_election, electLoop, computeScores, addScore, most_common,
      insertDesc, reweight, sumWeights, List.countP_cons, List.countP_nil,
      Candidate.mk.injEq, hAB, hBA]
  · norm_num [specSingleSeatWinner, seenCandidates, rawApprovalCount, firstMaxBy,
      List.countP_cons, List.countP_nil, Candidate.mk.injEq, hAB, hBA]
  · simp [Candidate.mk.injEq, hAB]

/-- C4 witness: three duplicate-free ballots, B approved by two of them; the
engine elects B, matching the raw-approval-count winner. -/
theorem approval_election_single_seat_raw_count_witness :
    ([(⟨"B"⟩ : Candidate)] : List Candidate)
      = (specSingleSeatWinner
          [⟨[⟨"A"⟩], 1⟩, ⟨[⟨"B"⟩], 1⟩, ⟨[⟨"B"⟩], 1⟩]).toList := by
  have hAB : ("A" : String) ≠ "B" := by decide
  have hBA : ("B" : String) ≠ "A" := by decide
  have h : approval_election [⟨[⟨"A"⟩], 1⟩, ⟨[⟨"B"⟩], 1⟩, ⟨[⟨"B"⟩], 1⟩] 1
      = .ok ⟨[⟨"B"⟩], [⟨⟨"B"⟩, [(⟨"A"⟩, 1), (⟨"B"⟩, 2)], 3⟩],
          [⟨[⟨"A"⟩], 1⟩, ⟨[⟨"B"⟩], 1/2⟩, ⟨[⟨"B"⟩], 1/2⟩]⟩ := by
    norm_num [approval_election, electLoop, computeScores, addScore, most_common,
      insertDesc, reweight, sumWeights, List.countP_cons, List.countP_nil,
      Candidate.mk.injEq, hAB, hBA]
  exact approval_election_single_seat_raw_count _ _
    (by intro b hb; simp at hb; rcases hb with rfl | rfl | rfl <;> rfl)
    (by intro b hb; simp at hb; rcases hb with rfl | rfl | rfl <;> simp) h
